import Mathlib

/-!
Verification of the OSC (Open Sound Control) codec and SLIP framing layer
described by the repository's type declarations (`src/types/osc/index.d.ts`,
`src/types/osc-min/index.d.ts`) and its design specification.

The repository ships only TypeScript declaration files; the function bodies
live in the upstream `osc.js` package.  Where a definition below embeds such
a missing body it is modelled from the specification (each doc comment says
so explicitly).  Bytes are `Nat` values in `[0, 256)`; buffers are `List Nat`
consumed from the front (every OSC field is a multiple of 4 bytes, so
front-consumption preserves the 4-byte alignment the wire format requires).
Fallible reads return `Except OscErr`.
-/

namespace Osc

/-- Error taxonomy of the decoder, from the specification's error-handling
design (section 7). -/
inductive OscErr where
  | truncated
  | invalidTypeTag
  | invalidAddress
  | invalidBundleMarker
  | invalidPacket
  | unsupportedArgumentType
  | invalidArgument
  | invalidEscapeSequence
  | bundleTooDeep
deriving DecidableEq, Repr

/-- Rounds `n` up to the next multiple of 4; OSC pads every variable-length
field with null bytes to a 4-byte boundary. -/
def pad4 (n : Nat) : Nat := (n + 3) / 4 * 4

/-- Big-endian byte image of `n`, `w` bytes wide (the value is taken modulo
`256 ^ w`, as a machine register would). -/
def beBytes : Nat → Nat → List Nat
  | 0, _ => []
  | w + 1, n => n / 256 ^ w % 256 :: beBytes w n

/-- Accumulating big-endian reader: consumes `w` bytes from the front of the
buffer, folding them onto `acc`; fails with `truncated` when the buffer is
too short. -/
def readBEAux : Nat → Nat → List Nat → Except OscErr (Nat × List Nat)
  | 0, acc, bs => .ok (acc, bs)
  | _ + 1, _, [] => .error .truncated
  | w + 1, acc, b :: bs => readBEAux w (acc * 256 + b) bs

/-- Reads a `w`-byte big-endian unsigned integer from the front of the
buffer. -/
def readBE (w : Nat) (bytes : List Nat) : Except OscErr (Nat × List Nat) :=
  readBEAux w 0 bytes

/-- Index of the first null byte of the buffer, when one exists. -/
def strScan : List Nat → Option Nat
  | [] => none
  | b :: bs => if b = 0 then some 0 else (strScan bs).map (· + 1)

/-- Modelled from the spec: `readString` of `osc.js` (declared at
`src/types/osc/index.d.ts:120`).  Reads a null-terminated byte sequence and
skips the null padding that extends the field (content plus terminator) to
the next multiple of 4; a buffer with no terminator, or shorter than the
padded field, fails with `truncated`. -/
def readOscString (bytes : List Nat) : Except OscErr (List Nat × List Nat) :=
  match strScan bytes with
  | none => .error .truncated
  | some i =>
    let total := pad4 (i + 1)
    if total ≤ bytes.length then .ok (bytes.take i, bytes.drop total)
    else .error .truncated

/-- Modelled from the spec: `writeString` of `osc.js` (declared at
`src/types/osc/index.d.ts:128`).  Emits the content bytes, a null
terminator, and null padding to the next multiple of 4. -/
def writeOscString (s : List Nat) : List Nat :=
  s ++ List.replicate (pad4 (s.length + 1) - s.length) 0

/-- A legal OSC string payload: byte values below 256 with no embedded
null (the null is the wire terminator). -/
def validString (s : List Nat) : Bool :=
  s.all fun b => b ≠ 0 && b < 256

theorem strScan_append_zero (s t : List Nat) (h : ∀ b ∈ s, b ≠ 0) :
    strScan (s ++ 0 :: t) = some s.length := by
  induction s with
  | nil => simp [strScan]
  | cons b bs ih =>
    have hb : b ≠ 0 := h b (List.mem_cons_self b bs)
    have ih2 := ih fun x hx => h x (List.mem_cons_of_mem b hx)
    simp [strScan, hb, ih2]

theorem pad4_ge (n : Nat) : n ≤ pad4 n := by
  unfold pad4; omega

theorem pad4_lt (n : Nat) : pad4 n < n + 4 := by
  unfold pad4; omega

/-- `writeOscString` always appends at least the terminator byte. -/
theorem writeOscString_eq (s : List Nat) :
    writeOscString s = s ++ 0 :: List.replicate (pad4 (s.length + 1) - s.length - 1) 0 := by
  unfold writeOscString
  have h1 : s.length + 1 ≤ pad4 (s.length + 1) := pad4_ge _
  obtain ⟨k, hk⟩ : ∃ k, pad4 (s.length + 1) - s.length = k + 1 :=
    ⟨pad4 (s.length + 1) - s.length - 1, by omega⟩
  rw [hk, List.replicate_succ]
  simp

theorem writeOscString_length (s : List Nat) :
    (writeOscString s).length = pad4 (s.length + 1) := by
  unfold writeOscString
  have := pad4_ge (s.length + 1)
  simp; omega

/-- Round trip for OSC strings: reading a written string returns the
payload and leaves the tail untouched. -/
theorem readOscString_writeOscString (s rest : List Nat)
    (h : ∀ b ∈ s, b ≠ 0) :
    readOscString (writeOscString s ++ rest) = .ok (s, rest) := by
  rw [writeOscString_eq]
  unfold readOscString
  rw [List.append_assoc, List.cons_append, strScan_append_zero s _ h]
  have hlen : (s ++ 0 :: (List.replicate (pad4 (s.length + 1) - s.length - 1) 0 ++ rest)).length
      = pad4 (s.length + 1) + rest.length := by
    have := pad4_ge (s.length + 1)
    simp; omega
  have hle : pad4 (s.length + 1) ≤ (s ++ 0 :: (List.replicate (pad4 (s.length + 1) - s.length - 1) 0 ++ rest)).length := by
    rw [hlen]; omega
  simp only [hle, if_pos]
  have htake : List.take s.length (s ++ 0 :: (List.replicate (pad4 (s.length + 1) - s.length - 1) 0 ++ rest)) = s := by
    rw [List.take_append_of_le_length (le_refl s.length), List.take_length]
  have hgrp : s ++ 0 :: (List.replicate (pad4 (s.length + 1) - s.length - 1) 0 ++ rest)
      = (s ++ 0 :: List.replicate (pad4 (s.length + 1) - s.length - 1) 0) ++ rest := by
    simp
  have hlen2 : (s ++ 0 :: List.replicate (pad4 (s.length + 1) - s.length - 1) 0).length
      = pad4 (s.length + 1) := by
    have := pad4_ge (s.length + 1)
    simp; omega
  have hdrop : List.drop (pad4 (s.length + 1)) (s ++ 0 :: (List.replicate (pad4 (s.length + 1) - s.length - 1) 0 ++ rest)) = rest := by
    rw [hgrp]
    exact List.drop_left' hlen2
  rw [htake, hdrop]

theorem readBEAux_beBytes (w : Nat) :
    ∀ (acc n : Nat) (rest : List Nat),
      readBEAux w acc (beBytes w n ++ rest) = .ok (acc * 256 ^ w + n % 256 ^ w, rest) := by
  induction w with
  | zero => intro acc n rest; simp [beBytes, readBEAux, Nat.mod_one]
  | succ w ih =>
    intro acc n rest
    rw [beBytes, List.cons_append]
    show readBEAux (w + 1) acc _ = _
    rw [readBEAux, ih]
    congr 2
    have hmul : 256 ^ (w + 1) = 256 ^ w * 256 := by ring
    have hmod : n % (256 ^ w * 256) = n % 256 ^ w + 256 ^ w * (n / 256 ^ w % 256) :=
      Nat.mod_mul
    rw [hmul, hmod]
    ring

theorem readBE_beBytes (w n : Nat) (rest : List Nat) (h : n < 256 ^ w) :
    readBE w (beBytes w n ++ rest) = .ok (n, rest) := by
  unfold readBE
  rw [readBEAux_beBytes]
  rw [Nat.mod_eq_of_lt h]
  simp

theorem beBytes_length (w n : Nat) : (beBytes w n).length = w := by
  induction w generalizing n with
  | zero => simp [beBytes]
  | succ w ih => simp [beBytes, ih]

/-- Reinterprets a `w`-bit unsigned value as two's complement. -/
def toSigned (w : Nat) (u : Nat) : Int :=
  if u < 2 ^ (w - 1) then (u : Int) else (u : Int) - 2 ^ w

/-- Modelled from the spec: `writeInt32` of `osc.js` (declared at
`src/types/osc/index.d.ts:146`): 4 bytes, big-endian two's complement. -/
def writeInt32 (n : Int) : List Nat := beBytes 4 (n % 2 ^ 32).toNat

/-- Modelled from the spec: `readInt32` of `osc.js` (declared at
`src/types/osc/index.d.ts:137`). -/
def readInt32 (bytes : List Nat) : Except OscErr (Int × List Nat) :=
  (readBE 4 bytes).map fun p => (toSigned 32 p.1, p.2)

/-- Modelled from the spec: `writeInt64` of `osc.js` (declared at
`src/types/osc/index.d.ts:164`): 8 bytes, big-endian two's complement. -/
def writeInt64 (n : Int) : List Nat := beBytes 8 (n % 2 ^ 64).toNat

/-- Modelled from the spec: `readInt64` of `osc.js` (declared at
`src/types/osc/index.d.ts:155`). -/
def readInt64 (bytes : List Nat) : Except OscErr (Int × List Nat) :=
  (readBE 8 bytes).map fun p => (toSigned 64 p.1, p.2)

theorem readInt32_writeInt32 (n : Int) (rest : List Nat)
    (h1 : -(2 ^ 31) ≤ n) (h2 : n < 2 ^ 31) :
    readInt32 (writeInt32 n ++ rest) = .ok (n, rest) := by
  unfold readInt32 writeInt32
  have hlt : (n % 2 ^ 32).toNat < 256 ^ 4 := by omega
  rw [readBE_beBytes _ _ _ hlt]
  have hval : toSigned 32 (n % 2 ^ 32).toNat = n := by
    unfold toSigned
    split <;> omega
  simp only [Except.map, hval]

theorem readInt64_writeInt64 (n : Int) (rest : List Nat)
    (h1 : -(2 ^ 63) ≤ n) (h2 : n < 2 ^ 63) :
    readInt64 (writeInt64 n ++ rest) = .ok (n, rest) := by
  unfold readInt64 writeInt64
  have hlt : (n % 2 ^ 64).toNat < 256 ^ 8 := by
    have : (256 : Nat) ^ 8 = 2 ^ 64 := by norm_num
    omega
  rw [readBE_beBytes _ _ _ hlt]
  have hval : toSigned 64 (n % 2 ^ 64).toNat = n := by
    unfold toSigned
    split <;> omega
  simp only [Except.map, hval]

/-- Modelled from the spec: `writeBlob` of `osc.js` (declared at
`src/types/osc/index.d.ts:237`): an int32 byte count, the raw bytes, then
null padding to the next multiple of 4 (padding not counted). -/
def writeBlobBytes (bs : List Nat) : List Nat :=
  writeInt32 (bs.length : Int) ++ bs ++ List.replicate (pad4 bs.length - bs.length) 0

/-- Modelled from the spec: `readBlob` of `osc.js` (declared at
`src/types/osc/index.d.ts:227`). -/
def readBlob (bytes : List Nat) : Except OscErr (List Nat × List Nat) :=
  match readBE 4 bytes with
  | .error e => .error e
  | .ok (n, rest) =>
    if pad4 n ≤ rest.length then .ok (rest.take n, rest.drop (pad4 n))
    else .error .truncated

theorem writeInt32_natCast (len : Nat) (h : len < 2 ^ 32) :
    writeInt32 (len : Int) = beBytes 4 len := by
  unfold writeInt32
  congr 1
  omega

theorem readBlob_writeBlobBytes (bs rest : List Nat) (h : bs.length < 2 ^ 31) :
    readBlob (writeBlobBytes bs ++ rest) = .ok (bs, rest) := by
  unfold readBlob writeBlobBytes
  rw [writeInt32_natCast bs.length (by omega), List.append_assoc, List.append_assoc,
    readBE_beBytes 4 bs.length _ (by norm_num; omega)]
  have hfld : bs ++ (List.replicate (pad4 bs.length - bs.length) 0 ++ rest)
      = (bs ++ List.replicate (pad4 bs.length - bs.length) 0) ++ rest := by simp
  have hlen2 : (bs ++ List.replicate (pad4 bs.length - bs.length) 0).length = pad4 bs.length := by
    have := pad4_ge bs.length
    simp; omega
  have hle : pad4 bs.length ≤ (bs ++ (List.replicate (pad4 bs.length - bs.length) 0 ++ rest)).length := by
    have := pad4_ge bs.length
    simp
    omega
  simp only [hle, if_pos]
  have htake : (bs ++ (List.replicate (pad4 bs.length - bs.length) 0 ++ rest)).take bs.length = bs := by
    rw [List.take_append_of_le_length (le_refl bs.length), List.take_length]
  have hdrop : (bs ++ (List.replicate (pad4 bs.length - bs.length) 0 ++ rest)).drop (pad4 bs.length) = rest := by
    rw [hfld]
    exact List.drop_left' hlen2
  rw [htake, hdrop]

/-- Number of seconds separating the NTP epoch (1 Jan 1900) from the
Unix/JavaScript epoch (1 Jan 1970). -/
def secondsBetween1900And1970 : Nat := 2208988800

/-- Modelled from the spec: `ntpToJSTime` of `osc.js` (declared at
`src/types/osc/index.d.ts:335`): converts an NTP pair (seconds since 1900,
binary fraction of a second) into milliseconds since the Unix epoch.  The
model computes in exact rational arithmetic. -/
def ntpToJSTime (secs1900 frac : Nat) : ℚ :=
  ((secs1900 : ℚ) - (secondsBetween1900And1970 : ℚ)) * 1000 + (frac : ℚ) / 2 ^ 32 * 1000

/-- Modelled from the spec: `jsToNTPTime` of `osc.js` (the native-to-NTP
direction named in the spec's Time Tag Converter, section 4.6): seconds are
the floor of the millisecond timestamp over 1000, the remainder is scaled to
a 32-bit binary fraction and rounded. -/
def jsToNTPTime (ms : ℚ) : Int × Int :=
  (⌊ms / 1000⌋ + (secondsBetween1900And1970 : Int),
   round ((ms / 1000 - (⌊ms / 1000⌋ : ℚ)) * 2 ^ 32))

/-- The `TimeTag` record of `src/types/osc/index.d.ts:13`: the raw NTP pair
and the derived native (millisecond) timestamp. -/
structure TimeTag where
  raw : Nat × Nat
  native : ℚ
deriving DecidableEq, Repr

/-- Modelled from the spec: `readTimeTag` of `osc.js` (declared at
`src/types/osc/index.d.ts:300`): two big-endian uint32 reads; the native
field is derived from the raw pair. -/
def readTimeTag (bytes : List Nat) : Except OscErr (TimeTag × List Nat) :=
  match readBE 4 bytes with
  | .error e => .error e
  | .ok (secs, r1) =>
    match readBE 4 r1 with
    | .error e => .error e
    | .ok (frac, r2) => .ok (⟨(secs, frac), ntpToJSTime secs frac⟩, r2)

/-- Modelled from the spec: `writeTimeTag` of `osc.js` (declared at
`src/types/osc/index.d.ts:315`): the raw pair is authoritative and is
written as two big-endian uint32 values. -/
def writeTimeTag (tt : TimeTag) : List Nat :=
  beBytes 4 tt.raw.1 ++ beBytes 4 tt.raw.2

theorem readTimeTag_writeTimeTag (tt : TimeTag) (rest : List Nat)
    (h1 : tt.raw.1 < 2 ^ 32) (h2 : tt.raw.2 < 2 ^ 32)
    (h3 : tt.native = ntpToJSTime tt.raw.1 tt.raw.2) :
    readTimeTag (writeTimeTag tt ++ rest) = .ok (tt, rest) := by
  unfold readTimeTag writeTimeTag
  rw [List.append_assoc]
  simp only [readBE_beBytes 4 tt.raw.1 _ (by norm_num; omega)]
  simp only [readBE_beBytes 4 tt.raw.2 _ (by norm_num; omega)]
  simp [← h3]

/-- The closed set of type-annotated argument values of the `TypeTag` union
at `src/types/osc/index.d.ts:61`.  Float payloads are carried as their IEEE
754 bit patterns (4 or 8 bytes), which is exactly what the wire stores; the
colour alpha channel is the rational the byte scales to, as the `RGBAColour`
record exposes it. -/
inductive OscValue where
  | vTrue
  | vFalse
  | vNull
  | vImpulse
  | vInt32 (n : Int)
  | vInt64 (n : Int)
  | vFloat32 (bits : Nat)
  | vFloat64 (bits : Nat)
  | vString (s : List Nat)
  | vSymbol (s : List Nat)
  | vBlob (bs : List Nat)
  | vChar (c : Nat)
  | vMidi (port status data1 data2 : Nat)
  | vColor (r g b : Nat) (a : ℚ)
  | vTime (tt : TimeTag)
deriving DecidableEq, Repr

/-- The one-character OSC type tag of a value, as a byte. -/
def tagFor : OscValue → Nat
  | .vTrue => 0x54
  | .vFalse => 0x46
  | .vNull => 0x4E
  | .vImpulse => 0x49
  | .vInt32 _ => 0x69
  | .vInt64 _ => 0x68
  | .vFloat32 _ => 0x66
  | .vFloat64 _ => 0x64
  | .vString _ => 0x73
  | .vSymbol _ => 0x53
  | .vBlob _ => 0x62
  | .vChar _ => 0x63
  | .vMidi _ _ _ _ => 0x6D
  | .vColor _ _ _ _ => 0x72
  | .vTime _ => 0x74

/-- Modelled from the spec: the writer half of the argument-type table of
`osc.js` (section 4.1 of the spec fixes every wire layout).  `T`, `F`, `N`
and `I` contribute no bytes. -/
def writeArgBody : OscValue → List Nat
  | .vTrue => []
  | .vFalse => []
  | .vNull => []
  | .vImpulse => []
  | .vInt32 n => writeInt32 n
  | .vInt64 n => writeInt64 n
  | .vFloat32 bits => beBytes 4 bits
  | .vFloat64 bits => beBytes 8 bits
  | .vString s => writeOscString s
  | .vSymbol s => writeOscString s
  | .vBlob bs => writeBlobBytes bs
  | .vChar c => beBytes 4 c
  | .vMidi p s d1 d2 => [p, s, d1, d2]
  | .vColor r g b a => [r, g, b, (round (a * 255)).toNat]
  | .vTime tt => writeTimeTag tt

/-- Modelled from the spec: the reader half of the argument-type table of
`osc.js`, dispatching on a type-tag byte (section 4.2).  `readTrue`,
`readFalse`, `readNull` and `readImpulse` (declared at
`src/types/osc/index.d.ts:276,281,286,291`) consume no bytes; an unknown
tag fails with `invalidTypeTag` (strict mode). -/
def readArgBody (tag : Nat) (bytes : List Nat) : Except OscErr (OscValue × List Nat) :=
  if tag = 0x54 then .ok (.vTrue, bytes)
  else if tag = 0x46 then .ok (.vFalse, bytes)
  else if tag = 0x4E then .ok (.vNull, bytes)
  else if tag = 0x49 then .ok (.vImpulse, bytes)
  else if tag = 0x69 then (readInt32 bytes).map fun p => (.vInt32 p.1, p.2)
  else if tag = 0x68 then (readInt64 bytes).map fun p => (.vInt64 p.1, p.2)
  else if tag = 0x66 then (readBE 4 bytes).map fun p => (.vFloat32 p.1, p.2)
  else if tag = 0x64 then (readBE 8 bytes).map fun p => (.vFloat64 p.1, p.2)
  else if tag = 0x73 then (readOscString bytes).map fun p => (.vString p.1, p.2)
  else if tag = 0x53 then (readOscString bytes).map fun p => (.vSymbol p.1, p.2)
  else if tag = 0x62 then (readBlob bytes).map fun p => (.vBlob p.1, p.2)
  else if tag = 0x63 then (readBE 4 bytes).map fun p => (.vChar p.1, p.2)
  else if tag = 0x6D then
    match bytes with
    | p :: s :: d1 :: d2 :: rest => .ok (.vMidi p s d1 d2, rest)
    | _ => .error .truncated
  else if tag = 0x72 then
    match bytes with
    | r :: g :: b :: a :: rest => .ok (.vColor r g b ((a : ℚ) / 255), rest)
    | _ => .error .truncated
  else if tag = 0x74 then (readTimeTag bytes).map fun p => (.vTime p.1, p.2)
  else .error .invalidTypeTag

/-- A value the writers can represent exactly on the wire (ranges from
section 4.1; a writer invoked outside them fails with `invalidArgument`,
which the round-trip statements exclude by hypothesis). -/
def validValue : OscValue → Bool
  | .vTrue => true
  | .vFalse => true
  | .vNull => true
  | .vImpulse => true
  | .vInt32 n => decide (-(2 ^ 31) ≤ n) && decide (n < 2 ^ 31)
  | .vInt64 n => decide (-(2 ^ 63) ≤ n) && decide (n < 2 ^ 63)
  | .vFloat32 bits => decide (bits < 2 ^ 32)
  | .vFloat64 bits => decide (bits < 2 ^ 64)
  | .vString s => validString s
  | .vSymbol s => validString s
  | .vBlob bs => bs.all (fun b => b < 256) && decide (bs.length < 2 ^ 31)
  | .vChar c => decide (c < 2 ^ 32)
  | .vMidi p s d1 d2 => decide (p < 256) && decide (s < 256) && decide (d1 < 256) && decide (d2 < 256)
  | .vColor r g b a =>
      decide (r < 256) && decide (g < 256) && decide (b < 256) &&
      decide ((a * 255).den = 1) && decide (0 ≤ a) && decide (a ≤ 1)
  | .vTime tt =>
      decide (tt.raw.1 < 2 ^ 32) && decide (tt.raw.2 < 2 ^ 32) &&
      decide (tt.native = ntpToJSTime tt.raw.1 tt.raw.2)

theorem color_alpha_roundtrip (a : ℚ) (hden : (a * 255).den = 1)
    (h0 : 0 ≤ a) (h1 : a ≤ 1) :
    (((round (a * 255)).toNat : ℚ) / 255) = a := by
  have hq : ((a * 255).num : ℚ) = a * 255 := by
    conv_rhs => rw [← Rat.num_div_den (a * 255)]
    rw [hden]
    simp
  have hround : round (a * 255) = (a * 255).num := by
    conv_lhs => rw [← hq]
    rw [round_intCast]
  have hnum0 : 0 ≤ (a * 255).num := Rat.num_nonneg.mpr (by positivity)
  have hcast : (((round (a * 255)).toNat : ℚ)) = a * 255 := by
    have h2 : (((round (a * 255)).toNat : ℚ)) = (((round (a * 255)).toNat : Int) : ℚ) := by
      push_cast
      ring
    rw [h2, hround, Int.toNat_of_nonneg hnum0, hq]
  rw [hcast]
  field_simp

/-- Per-value round trip: reading the body written for a valid value, with
the value's own tag, returns the value and leaves the tail untouched. -/
theorem readArgBody_writeArgBody (v : OscValue) (rest : List Nat)
    (h : validValue v = true) :
    readArgBody (tagFor v) (writeArgBody v ++ rest) = .ok (v, rest) := by
  cases v with
  | vTrue => simp [tagFor, writeArgBody, readArgBody]
  | vFalse => simp [tagFor, writeArgBody, readArgBody]
  | vNull => simp [tagFor, writeArgBody, readArgBody]
  | vImpulse => simp [tagFor, writeArgBody, readArgBody]
  | vInt32 n =>
    simp only [validValue, Bool.and_eq_true, decide_eq_true_eq] at h
    simp only [tagFor, writeArgBody, readArgBody, if_pos, if_neg, reduceIte]
    rw [readInt32_writeInt32 n rest h.1 h.2]
    simp [Except.map]
  | vInt64 n =>
    simp only [validValue, Bool.and_eq_true, decide_eq_true_eq] at h
    simp only [tagFor, writeArgBody, readArgBody, reduceIte]
    rw [readInt64_writeInt64 n rest h.1 h.2]
    simp [Except.map]
  | vFloat32 bits =>
    simp only [validValue, decide_eq_true_eq] at h
    simp only [tagFor, writeArgBody, readArgBody, reduceIte]
    rw [readBE_beBytes 4 bits rest (by norm_num; omega)]
    simp [Except.map]
  | vFloat64 bits =>
    simp only [validValue, decide_eq_true_eq] at h
    simp only [tagFor, writeArgBody, readArgBody, reduceIte]
    rw [readBE_beBytes 8 bits rest (by norm_num; omega)]
    simp [Except.map]
  | vString s =>
    have hs : ∀ b ∈ s, b ≠ 0 := by
      intro b hb
      simp only [validValue, validString, List.all_eq_true] at h
      have := h b hb
      simp at this
      exact this.1
    simp only [tagFor, writeArgBody, readArgBody, reduceIte]
    rw [readOscString_writeOscString s rest hs]
    simp [Except.map]
  | vSymbol s =>
    have hs : ∀ b ∈ s, b ≠ 0 := by
      intro b hb
      simp only [validValue, validString, List.all_eq_true] at h
      have := h b hb
      simp at this
      exact this.1
    simp only [tagFor, writeArgBody, readArgBody, reduceIte]
    rw [readOscString_writeOscString s rest hs]
    simp [Except.map]
  | vBlob bs =>
    simp only [validValue, Bool.and_eq_true, decide_eq_true_eq] at h
    simp only [tagFor, writeArgBody, readArgBody, reduceIte]
    rw [readBlob_writeBlobBytes bs rest h.2]
    simp [Except.map]
  | vChar c =>
    simp only [validValue, decide_eq_true_eq] at h
    simp only [tagFor, writeArgBody, readArgBody, reduceIte]
    rw [readBE_beBytes 4 c rest (by norm_num; omega)]
    simp [Except.map]
  | vMidi p s d1 d2 =>
    simp [tagFor, writeArgBody, readArgBody]
  | vColor r g b a =>
    simp only [validValue, Bool.and_eq_true, decide_eq_true_eq] at h
    obtain ⟨⟨⟨⟨⟨hr, hg⟩, hb⟩, hden⟩, h0⟩, h1⟩ := h
    simp [tagFor, writeArgBody, readArgBody, color_alpha_roundtrip a hden h0 h1]
  | vTime tt =>
    simp only [validValue, Bool.and_eq_true, decide_eq_true_eq] at h
    obtain ⟨⟨h1, h2⟩, h3⟩ := h
    simp only [tagFor, writeArgBody, readArgBody, reduceIte]
    rw [readTimeTag_writeTimeTag tt rest h1 h2 h3]
    simp [Except.map]

/-- Reads one argument body per tag byte, in order (the sequential phase of
`readArguments`). -/
def readArgsLoop : List Nat → List Nat → Except OscErr (List OscValue × List Nat)
  | [], bytes => .ok ([], bytes)
  | tag :: tags, bytes =>
    match readArgBody tag bytes with
    | .error e => .error e
    | .ok (v, rest) =>
      match readArgsLoop tags rest with
      | .error e => .error e
      | .ok (vs, rest2) => .ok (v :: vs, rest2)

/-- Modelled from the spec: `readArguments` of `osc.js` (declared at
`src/types/osc/index.d.ts:350`): parses the type-tag string (an OSC string
whose first character must be the comma) and then applies the matching
reader per tag.  The model keeps every argument type-annotated, which is
the `metadata = true` view of the decoded list. -/
def readArguments (bytes : List Nat) : Except OscErr (List OscValue × List Nat) :=
  match readOscString bytes with
  | .error e => .error e
  | .ok (tagStr, rest) =>
    match tagStr with
    | 0x2C :: tags => readArgsLoop tags rest
    | _ => .error .invalidTypeTag

/-- Modelled from the spec: the type-annotated half of `writeArguments` of
`osc.js` (declared at `src/types/osc/index.d.ts:361`): a comma-prefixed
type-tag string followed by each argument body in order. -/
def writeArgumentsTyped (args : List OscValue) : List Nat :=
  writeOscString (0x2C :: args.map tagFor) ++ (args.map writeArgBody).flatten

theorem tagFor_ne_zero (v : OscValue) : tagFor v ≠ 0 := by
  cases v <;> simp [tagFor]

theorem readArgsLoop_write (args : List OscValue) (rest : List Nat)
    (h : ∀ v ∈ args, validValue v = true) :
    readArgsLoop (args.map tagFor) ((args.map writeArgBody).flatten ++ rest)
      = .ok (args, rest) := by
  induction args with
  | nil => simp [readArgsLoop]
  | cons v vs ih =>
    have hv : validValue v = true := h v (List.mem_cons_self v vs)
    have hvs : ∀ x ∈ vs, validValue x = true :=
      fun x hx => h x (List.mem_cons_of_mem v hx)
    simp only [List.map_cons, List.flatten_cons, List.append_assoc]
    rw [readArgsLoop, readArgBody_writeArgBody v _ hv]
    simp only [ih hvs]

theorem readArguments_writeArgumentsTyped (args : List OscValue) (rest : List Nat)
    (h : ∀ v ∈ args, validValue v = true) :
    readArguments (writeArgumentsTyped args ++ rest) = .ok (args, rest) := by
  unfold readArguments writeArgumentsTyped
  have htags : ∀ b ∈ 0x2C :: args.map tagFor, b ≠ 0 := by
    intro b hb
    rcases List.mem_cons.mp hb with hb | hb
    · omega
    · obtain ⟨v, _, hv⟩ := List.mem_map.mp hb
      rw [← hv]
      exact tagFor_ne_zero v
  rw [List.append_assoc, readOscString_writeOscString _ _ htags]
  exact readArgsLoop_write args rest h

/-- The `args` field of a `Message` (`src/types/osc/index.d.ts:21`): either
the array form, or — when `unpackSingleArgs` collapses a one-element list —
a bare value. -/
inductive ArgsField where
  | packed (args : List OscValue)
  | unpacked (v : OscValue)
deriving DecidableEq, Repr

/-- The `Message` record of `src/types/osc/index.d.ts:21`: an address and
its arguments. -/
structure OscMessage where
  address : List Nat
  args : ArgsField
deriving DecidableEq, Repr

/-- The `Options` record of `src/types/osc/index.d.ts:86`. -/
structure Options where
  metadata : Bool
  unpackSingleArgs : Bool
deriving DecidableEq, Repr

/-- The argument list a message's `args` field denotes: the bare-scalar form
is the one-element list. -/
def ArgsField.toList : ArgsField → List OscValue
  | .packed l => l
  | .unpacked v => [v]

/-- Modelled from the spec: the decode-side wrapping rule of section 4.3 —
when `unpackSingleArgs` is set and exactly one argument was read, the value
is exposed unwrapped. -/
def mkArgsField (opts : Options) : List OscValue → ArgsField
  | [v] => if opts.unpackSingleArgs then .unpacked v else .packed [v]
  | l => .packed l

/-- Modelled from the spec: `writeMessage` of `osc.js` (declared at
`src/types/osc/index.d.ts:389`): the address as an OSC string, then the
comma-prefixed type-tag string, then each argument's bytes.  Both the
wrapped one-element form and the bare-scalar form encode through
`ArgsField.toList`, hence identically. -/
def writeMessage (msg : OscMessage) (_opts : Options) : List Nat :=
  writeOscString msg.address ++ writeArgumentsTyped msg.args.toList

/-- Modelled from the spec: `readMessage` of `osc.js` (declared at
`src/types/osc/index.d.ts:380`): reads the address (which must begin with
the `/` byte, else `invalidAddress`), then delegates to the argument
codec. -/
def readMessage (opts : Options) (bytes : List Nat) : Except OscErr (OscMessage × List Nat) :=
  match readOscString bytes with
  | .error e => .error e
  | .ok (addr, rest) =>
    if addr.head? = some 0x2F then
      match readArguments rest with
      | .error e => .error e
      | .ok (args, rest2) => .ok (⟨addr, mkArgsField opts args⟩, rest2)
    else .error .invalidAddress

/-- A message the writer represents exactly: a non-empty `/`-prefixed
address with legal string bytes, and valid arguments in the canonical
array form. -/
def validMessage (m : OscMessage) : Bool :=
  m.address.head? == some 0x2F && validString m.address &&
  (match m.args with
   | .packed l => l.all validValue
   | .unpacked _ => false)

theorem mkArgsField_packed (opts : Options) (l : List OscValue)
    (h : opts.unpackSingleArgs = false) : mkArgsField opts l = .packed l := by
  match l with
  | [] => rfl
  | [v] => simp [mkArgsField, h]
  | v :: w :: tl => rfl

/-- Message round trip at `unpackSingleArgs = false`: reading a written
valid message returns it unchanged and leaves the tail untouched. -/
theorem readMessage_writeMessage (opts : Options) (m : OscMessage) (rest : List Nat)
    (h : validMessage m = true) (hopts : opts.unpackSingleArgs = false) :
    readMessage opts (writeMessage m opts ++ rest) = .ok (m, rest) := by
  unfold readMessage writeMessage
  simp only [validMessage, Bool.and_eq_true, beq_iff_eq] at h
  obtain ⟨⟨hhead, hstr⟩, hargs⟩ := h
  have hs : ∀ b ∈ m.address, b ≠ 0 := by
    intro b hb
    simp only [validString, List.all_eq_true] at hstr
    have := hstr b hb
    simp at this
    exact this.1
  obtain ⟨l, hl⟩ : ∃ l, m.args = .packed l := by
    cases hm : m.args with
    | packed l => exact ⟨l, rfl⟩
    | unpacked v => rw [hm] at hargs; simp at hargs
  have hvals : ∀ v ∈ l, validValue v = true := by
    rw [hl] at hargs
    simp only [List.all_eq_true] at hargs
    exact hargs
  rw [List.append_assoc]
  simp only [readOscString_writeOscString _ _ hs, hhead, reduceIte, hl, ArgsField.toList,
    readArguments_writeArgumentsTyped l rest hvals, mkArgsField_packed opts l hopts]
  rw [← hl]

/-- The 8-byte bundle marker, the ASCII bytes of `#bundle` plus a null
terminator. -/
def bundleMarker : List Nat := [0x23, 0x62, 0x75, 0x6E, 0x64, 0x6C, 0x65, 0x00]

/-- The `Packet` sum type of `src/types/osc/index.d.ts:38`: a message or a
time-tagged bundle of nested packets (`Bundle`,
`src/types/osc/index.d.ts:30`). -/
inductive OscPacket where
  | msg (m : OscMessage)
  | bndl (timeTag : TimeTag) (packets : List OscPacket)

/-- The option record used by the writers; the typed encoding is the same
for every option value, so the writers fix this one. -/
def writeOpts : Options := ⟨true, false⟩

mutual

/-- Modelled from the spec: `writePacket` of `osc.js` (declared at
`src/types/osc/index.d.ts:438`): encode branches on the sum-type tag; a
bundle is the marker, the time tag, then each nested packet prefixed with
its int32 byte length. -/
def writePacket : OscPacket → List Nat
  | .msg m => writeMessage m writeOpts
  | .bndl tt ps => bundleMarker ++ (writeTimeTag tt ++ writePackets ps)

/-- The length-prefixed concatenation of the nested packets of a bundle
(the loop inside `writeBundle`). -/
def writePackets : List OscPacket → List Nat
  | [] => []
  | p :: ps => writeInt32 ((writePacket p).length : Int) ++ (writePacket p ++ writePackets ps)

end

/-- Modelled from the spec: `writeBundle` of `osc.js` (declared at
`src/types/osc/index.d.ts:413`). -/
def writeBundle (tt : TimeTag) (ps : List OscPacket) : List Nat :=
  bundleMarker ++ (writeTimeTag tt ++ writePackets ps)

mutual

/-- Modelled from the spec: `readPacket` of `osc.js` (declared at
`src/types/osc/index.d.ts:429`), section 4.5: an exact match of the first
8 bytes against `#bundle\0` routes to the bundle codec, otherwise a
leading `/` routes to the message codec, and any other leading byte fails
with `invalidPacket`.  `fuel` is the configured maximum bundle nesting
depth; entering a bundle with no fuel left fails with `bundleTooDeep`. -/
def readPacket (opts : Options) : Nat → List Nat → Except OscErr (OscPacket × List Nat)
  | fuel, bytes =>
    if bytes.take 8 = bundleMarker then
      match fuel with
      | 0 => .error .bundleTooDeep
      | fuel' + 1 =>
        match readTimeTag (bytes.drop 8) with
        | .error e => .error e
        | .ok (tt, r) =>
          match readBundlePackets opts fuel' r with
          | .error e => .error e
          | .ok ps => .ok (.bndl tt ps, [])
    else
      match bytes.head? with
      | none => .error .truncated
      | some b =>
        if b = 0x2F then
          match readMessage opts bytes with
          | .error e => .error e
          | .ok (m, r) => .ok (.msg m, r)
        else .error .invalidPacket
termination_by fuel bytes => (fuel, bytes.length)
decreasing_by
  · exact Prod.Lex.left _ _ (by omega)

/-- Modelled from the spec: the bundle-content loop of `readBundle`
(section 4.4): reads `(int32 length, that many bytes)` pairs until the
buffer is exhausted, decoding each slice recursively with its own bounded
length. -/
def readBundlePackets (opts : Options) : Nat → List Nat → Except OscErr (List OscPacket)
  | _, [] => .ok []
  | fuel, b0 :: b1 :: b2 :: b3 :: rest =>
    let n := ((b0 * 256 + b1) * 256 + b2) * 256 + b3
    if n ≤ rest.length then
      match readPacket opts fuel (rest.take n) with
      | .error e => .error e
      | .ok (p, _) =>
        match readBundlePackets opts fuel (rest.drop n) with
        | .error e => .error e
        | .ok ps => .ok (p :: ps)
    else .error .truncated
  | _, _ => .error .truncated
termination_by fuel bytes => (fuel, bytes.length)
decreasing_by
  · exact Prod.Lex.right _ (by simp [List.length_take]; omega)
  · exact Prod.Lex.right _ (by simp [List.length_drop]; omega)

end

/-- Modelled from the spec: `readBundle` of `osc.js` (declared at
`src/types/osc/index.d.ts:404`): validates the 8-byte marker exactly
(failing with `invalidBundleMarker` on mismatch) and decodes the bundle;
its declared result type is the `Packet` sum. -/
def readBundle (opts : Options) (fuel : Nat) (bytes : List Nat) :
    Except OscErr (OscPacket × List Nat) :=
  if bytes.take 8 = bundleMarker then readPacket opts fuel bytes
  else .error .invalidBundleMarker

mutual

/-- Nesting depth of a packet: messages are at depth 0, a bundle is one
deeper than its deepest member. -/
def packetDepth : OscPacket → Nat
  | .msg _ => 0
  | .bndl _ ps => packetsDepth ps + 1

/-- Deepest nesting depth among a list of packets. -/
def packetsDepth : List OscPacket → Nat
  | [] => 0
  | p :: ps => max (packetDepth p) (packetsDepth ps)

end

mutual

/-- A packet the writers represent exactly: valid messages, coherent
in-range time tags, and nested packets whose encodings fit an int32 length
prefix. -/
def validPacket : OscPacket → Bool
  | .msg m => validMessage m
  | .bndl tt ps =>
      decide (tt.raw.1 < 2 ^ 32) && decide (tt.raw.2 < 2 ^ 32) &&
      decide (tt.native = ntpToJSTime tt.raw.1 tt.raw.2) && validPackets ps

/-- Validity of each member of a bundle, plus the int32 bound on each
member's encoded length. -/
def validPackets : List OscPacket → Bool
  | [] => true
  | p :: ps => validPacket p && decide ((writePacket p).length < 2 ^ 31) && validPackets ps

end

theorem head?_take8 (xs : List Nat) : (xs.take 8).head? = xs.head? := by
  cases xs <;> simp

theorem take8_marker_append (xs : List Nat) : (bundleMarker ++ xs).take 8 = bundleMarker :=
  List.take_left' rfl

theorem drop8_marker_append (xs : List Nat) : (bundleMarker ++ xs).drop 8 = xs :=
  List.drop_left' rfl

theorem writeMessage_head (m : OscMessage) (opts : Options)
    (h : m.address.head? = some 0x2F) :
    (writeMessage m opts).head? = some 0x2F := by
  unfold writeMessage writeOscString
  cases haddr : m.address with
  | nil => rw [haddr] at h; simp at h
  | cons b bs =>
    rw [haddr] at h
    simp only [List.head?_cons, Option.some.injEq] at h
    simp [h]

theorem beBytes_four (L : Nat) :
    beBytes 4 L
      = [L / 256 ^ 3 % 256, L / 256 ^ 2 % 256, L / 256 ^ 1 % 256, L / 256 ^ 0 % 256] := by
  simp [beBytes]

/-- Joint round trip for packets and bundle members, by strong induction on
the packet size: reading back a written valid packet (with enough depth
budget, at a non-unpacking option set) returns it exactly. -/
theorem packet_roundtrip_aux :
    ∀ k : Nat,
      (∀ (p : OscPacket) (opts : Options) (fuel : Nat),
         sizeOf p ≤ k → validPacket p = true → packetDepth p ≤ fuel →
         opts.unpackSingleArgs = false →
         readPacket opts fuel (writePacket p) = .ok (p, [])) ∧
      (∀ (ps : List OscPacket) (opts : Options) (fuel : Nat),
         sizeOf ps ≤ k → validPackets ps = true → packetsDepth ps ≤ fuel →
         opts.unpackSingleArgs = false →
         readBundlePackets opts fuel (writePackets ps) = .ok ps) := by
  intro k
  induction k using Nat.strong_induction_on with
  | _ k ih =>
    constructor
    · intro p opts fuel hsz hval hdepth hopts
      cases p with
      | msg m =>
        have hvm : validMessage m = true := by
          simpa [validPacket] using hval
        have hhead : m.address.head? = some 0x2F := by
          have h2 := hvm
          simp only [validMessage, Bool.and_eq_true, beq_iff_eq] at h2
          exact h2.1.1
        have hwp : writePacket (.msg m) = writeMessage m writeOpts := by
          rw [writePacket]
        have hh : (writeMessage m writeOpts).head? = some 0x2F :=
          writeMessage_head m writeOpts hhead
        have hnm : ¬ (writeMessage m writeOpts).take 8 = bundleMarker := by
          intro hcontr
          have hx : (writeMessage m writeOpts).head? = some 0x23 := by
            rw [← head?_take8, hcontr]
            rfl
          rw [hh] at hx
          simp at hx
        have hrm : readMessage opts (writeMessage m writeOpts) = .ok (m, []) := by
          have h3 := readMessage_writeMessage opts m [] hvm hopts
          rw [List.append_nil] at h3
          exact h3
        rw [hwp, readPacket.eq_def]
        simp only [if_neg hnm, hh, hrm, reduceIte]
      | bndl tt ps =>
        have hval2 := hval
        rw [validPacket] at hval2
        simp only [Bool.and_eq_true, decide_eq_true_eq] at hval2
        obtain ⟨⟨⟨h1, h2⟩, h3⟩, hps⟩ := hval2
        have hdep : packetsDepth ps + 1 ≤ fuel := by
          have h4 := hdepth
          rw [packetDepth] at h4
          exact h4
        obtain ⟨fuel2, rfl⟩ : ∃ f, fuel = f + 1 := ⟨fuel - 1, by omega⟩
        have hwp : writePacket (.bndl tt ps)
            = bundleMarker ++ (writeTimeTag tt ++ writePackets ps) := by
          rw [writePacket]
        have hszps : sizeOf ps < k := by
          have h5 : sizeOf (OscPacket.bndl tt ps) = 1 + sizeOf tt + sizeOf ps := by
            simp
          omega
        have hlist : readBundlePackets opts fuel2 (writePackets ps) = .ok ps :=
          (ih (sizeOf ps) hszps).2 ps opts fuel2 (le_refl _) hps (by omega) hopts
        rw [hwp, readPacket.eq_def]
        simp only [take8_marker_append, drop8_marker_append, eq_self_iff_true, if_true,
          readTimeTag_writeTimeTag tt (writePackets ps) h1 h2 h3, hlist]
    · intro ps opts fuel hsz hval hdepth hopts
      cases ps with
      | nil =>
        rw [writePackets, readBundlePackets]
      | cons p ps2 =>
        simp only [validPackets, Bool.and_eq_true, decide_eq_true_eq] at hval
        obtain ⟨⟨hvp, hlen⟩, hvps⟩ := hval
        have hL32 : (writePacket p).length < 2 ^ 32 := by omega
        have hszp : sizeOf p < k := by
          have h5 : sizeOf (p :: ps2) = 1 + sizeOf p + sizeOf ps2 := by simp
          omega
        have hszps : sizeOf ps2 < k := by
          have h5 : sizeOf (p :: ps2) = 1 + sizeOf p + sizeOf ps2 := by simp
          omega
        have hdp : packetDepth p ≤ fuel := by
          have h6 := hdepth
          rw [packetsDepth] at h6
          omega
        have hdps : packetsDepth ps2 ≤ fuel := by
          have h6 := hdepth
          rw [packetsDepth] at h6
          omega
        have hpacket : readPacket opts fuel (writePacket p) = .ok (p, []) :=
          (ih (sizeOf p) hszp).1 p opts fuel (le_refl _) hvp hdp hopts
        have hrest : readBundlePackets opts fuel (writePackets ps2) = .ok ps2 :=
          (ih (sizeOf ps2) hszps).2 ps2 opts fuel (le_refl _) hvps hdps hopts
        rw [writePackets, writeInt32_natCast _ hL32, beBytes_four]
        simp only [List.cons_append, List.nil_append]
        rw [readBundlePackets]
        have hn : (((writePacket p).length / 256 ^ 3 % 256 * 256
              + (writePacket p).length / 256 ^ 2 % 256) * 256
              + (writePacket p).length / 256 ^ 1 % 256) * 256
              + (writePacket p).length / 256 ^ 0 % 256 = (writePacket p).length := by
          omega
        simp only [hn]
        have hle : (writePacket p).length ≤ (writePacket p ++ writePackets ps2).length := by
          simp
        rw [if_pos hle, List.take_left' rfl, List.drop_left' rfl, hpacket, hrest]

/-- States of the SLIP framing machine (section 4.7): either scanning
plain bytes or inside an escape sequence. -/
inductive SlipMode where
  | normal
  | escaped
deriving DecidableEq, Repr

/-- The persistent per-connection framing state: the scan mode and the
bytes of the frame accumulated so far. -/
structure SlipState where
  mode : SlipMode
  pending : List Nat
deriving DecidableEq, Repr

/-- The idle framing state. -/
def initSlip : SlipState := ⟨.normal, []⟩

/-- Modelled from the spec: one byte of the incremental SLIP decoder inside
`SLIPPort.decodeSLIPData` (declared at `src/types/osc/index.d.ts:461`),
section 4.7: `END` (0xC0) emits the accumulated frame (empty frames are
silently dropped); `ESC` (0xDB) consumes one following byte, translating
`ESC_END` (0xDC) and `ESC_ESC` (0xDD); any other byte after `ESC` is a
framing error that discards the partial frame and resynchronises; all other
bytes append verbatim. -/
def slipStep (st : SlipState) (b : Nat) : SlipState × List (List Nat) :=
  match st.mode with
  | .escaped =>
    if b = 0xDC then (⟨.normal, st.pending ++ [0xC0]⟩, [])
    else if b = 0xDD then (⟨.normal, st.pending ++ [0xDB]⟩, [])
    else (initSlip, [])
  | .normal =>
    if b = 0xC0 then
      if st.pending = [] then (st, []) else (initSlip, [st.pending])
    else if b = 0xDB then (⟨.escaped, st.pending⟩, [])
    else (⟨.normal, st.pending ++ [b]⟩, [])

/-- Feeding one chunk of raw bytes to the decoder: the new state and the
frames emitted, in order. -/
def slipDecode (st : SlipState) : List Nat → SlipState × List (List Nat)
  | [] => (st, [])
  | b :: bs =>
    let s2 := slipStep st b
    let s3 := slipDecode s2.1 bs
    (s3.1, s2.2 ++ s3.2)

/-- SLIP byte stuffing of a single byte. -/
def escByte (b : Nat) : List Nat :=
  if b = 0xC0 then [0xDB, 0xDC] else if b = 0xDB then [0xDB, 0xDD] else [b]

/-- Modelled from the spec: the SLIP frame encoder (section 4.7): escape
every literal `END`/`ESC` byte and append a trailing `END`. -/
def encodeSLIP (s : List Nat) : List Nat := s.flatMap escByte ++ [0xC0]

/-- Feeding a sequence of chunks one after the other, accumulating the
emitted frames. -/
def slipFeed (st : SlipState) : List (List Nat) → SlipState × List (List Nat)
  | [] => (st, [])
  | c :: cs =>
    let s2 := slipDecode st c
    let s3 := slipFeed s2.1 cs
    (s3.1, s2.2 ++ s3.2)

theorem slipDecode_append (st : SlipState) (a b : List Nat) :
    slipDecode st (a ++ b)
      = ((slipDecode (slipDecode st a).1 b).1,
         (slipDecode st a).2 ++ (slipDecode (slipDecode st a).1 b).2) := by
  induction a generalizing st with
  | nil => simp [slipDecode]
  | cons x xs ih => simp [slipDecode, ih, List.append_assoc]

/-- Chunk boundaries are invisible: feeding the chunks one by one equals
feeding their concatenation in one call, both in final state and in the
emitted frame sequence. -/
theorem slipFeed_flatten (st : SlipState) (cs : List (List Nat)) :
    slipFeed st cs = slipDecode st cs.flatten := by
  induction cs generalizing st with
  | nil => simp [slipFeed, slipDecode]
  | cons c cs ih => simp [slipFeed, slipDecode_append, ih]

theorem slipDecode_escByte (b : Nat) (acc tail : List Nat) :
    slipDecode ⟨.normal, acc⟩ (escByte b ++ tail)
      = slipDecode ⟨.normal, acc ++ [b]⟩ tail := by
  by_cases hb0 : b = 0xC0
  · subst hb0
    simp [escByte, slipDecode, slipStep]
  · by_cases hbe : b = 0xDB
    · subst hbe
      simp [escByte, slipDecode, slipStep]
    · simp [escByte, slipDecode, slipStep, hb0, hbe]

theorem slipDecode_escaped (s : List Nat) :
    ∀ acc, slipDecode ⟨.normal, acc⟩ (s.flatMap escByte)
      = (⟨.normal, acc ++ s⟩, []) := by
  induction s with
  | nil => intro acc; simp [slipDecode]
  | cons b bs ih =>
    intro acc
    rw [List.flatMap_cons, slipDecode_escByte, ih (acc ++ [b])]
    simp

/-- SLIP round trip for non-empty frames: decoding an encoded frame from
the idle state emits exactly that frame and returns to the idle state. -/
theorem slipDecode_encodeSLIP (s : List Nat) (h : s ≠ []) :
    slipDecode initSlip (encodeSLIP s) = (initSlip, [s]) := by
  unfold encodeSLIP
  rw [slipDecode_append]
  have h1 : slipDecode initSlip (s.flatMap escByte) = (⟨.normal, s⟩, []) := by
    have := slipDecode_escaped s []
    simpa [initSlip] using this
  rw [h1]
  simp [slipDecode, slipStep, initSlip, h]

/-- The NTP-to-native conversion composed the other way: converting the
produced milliseconds back yields the original NTP pair exactly (the model
computes in exact rationals, so no fixed-point loss appears). -/
theorem jsToNTPTime_ntpToJSTime (secs frac : Nat) (h : frac < 2 ^ 32) :
    jsToNTPTime (ntpToJSTime secs frac) = ((secs : Int), (frac : Int)) := by
  have hq0 : (0 : ℚ) ≤ (frac : ℚ) / 2 ^ 32 := by positivity
  have hq1 : ((frac : ℚ)) / 2 ^ 32 < 1 := by
    rw [div_lt_one (by positivity)]
    exact_mod_cast h
  have hdiv : ntpToJSTime secs frac / 1000
      = ((secs : ℚ) - 2208988800) + (frac : ℚ) / 2 ^ 32 := by
    unfold ntpToJSTime secondsBetween1900And1970
    push_cast
    ring
  have hfloor : ⌊ntpToJSTime secs frac / 1000⌋ = (secs : Int) - 2208988800 := by
    rw [hdiv, Int.floor_eq_iff]
    constructor
    · push_cast
      linarith
    · push_cast
      linarith
  unfold jsToNTPTime secondsBetween1900And1970
  rw [hfloor, hdiv]
  simp only [Prod.mk.injEq]
  constructor
  · push_cast
    ring
  · have harg : (((secs : ℚ) - 2208988800) + (frac : ℚ) / 2 ^ 32)
        - (((secs : Int) - 2208988800 : Int) : ℚ) = (frac : ℚ) / 2 ^ 32 := by
      push_cast
      ring
    rw [harg]
    have hq : (frac : ℚ) / 2 ^ 32 * 2 ^ 32 = (frac : ℚ) := by
      field_simp
    rw [hq]
    simp

/-- Modelled from the spec: the raw (untyped) JavaScript argument values the
encoder accepts (section 4.2).  A JS number is represented by its value
class: integral numbers by their integer value, non-integral numbers by the
IEEE 754 binary32 image they encode to (the double-to-single rounding step
itself is outside the model). -/
inductive RawValue where
  | rBool (b : Bool)
  | rNull
  | rIntNum (n : Int)
  | rFracNum (bits : Nat)
  | rString (s : List Nat)
  | rBlob (bs : List Nat)
deriving DecidableEq, Repr

/-- Modelled from the spec: the type inference of `writeArguments`
(section 4.2): booleans become `T`/`F`, null becomes `N`, integers within
the 32-bit range become `i`, larger integers `h`, non-integral numbers `f`,
strings `s`, byte buffers `b`. -/
def inferValue : RawValue → OscValue
  | .rBool true => .vTrue
  | .rBool false => .vFalse
  | .rNull => .vNull
  | .rIntNum n => if -(2 ^ 31) ≤ n ∧ n < 2 ^ 31 then .vInt32 n else .vInt64 n
  | .rFracNum bits => .vFloat32 bits
  | .rString s => .vString s
  | .rBlob bs => .vBlob bs

/-- The shape of a raw argument: the value kind, refined exactly as far as
inference discriminates (boolean value, integer range class). -/
inductive RawShape where
  | sTrue
  | sFalse
  | sNull
  | sInt32
  | sInt64
  | sFrac
  | sString
  | sBlob
deriving DecidableEq, Repr

def rawShape : RawValue → RawShape
  | .rBool true => .sTrue
  | .rBool false => .sFalse
  | .rNull => .sNull
  | .rIntNum n => if -(2 ^ 31) ≤ n ∧ n < 2 ^ 31 then .sInt32 else .sInt64
  | .rFracNum _ => .sFrac
  | .rString _ => .sString
  | .rBlob _ => .sBlob

/-- The type tag each shape infers to. -/
def tagOfShape : RawShape → Nat
  | .sTrue => 0x54
  | .sFalse => 0x46
  | .sNull => 0x4E
  | .sInt32 => 0x69
  | .sInt64 => 0x68
  | .sFrac => 0x66
  | .sString => 0x73
  | .sBlob => 0x62

/-- Modelled from the spec: `writeArguments` of `osc.js` on raw values
(declared at `src/types/osc/index.d.ts:361`): infer each argument's type,
then write the comma-prefixed tag string and the bodies. -/
def writeArguments (args : List RawValue) (_opts : Options) : List Nat :=
  writeArgumentsTyped (args.map inferValue)

/-- The type-tag string `writeArguments` infers for a raw argument list
(the comma plus one tag byte per argument). -/
def inferredTagString (args : List RawValue) : List Nat :=
  0x2C :: args.map fun a => tagFor (inferValue a)

theorem tagFor_inferValue_shape (r : RawValue) :
    tagFor (inferValue r) = tagOfShape (rawShape r) := by
  cases r with
  | rBool b => cases b <;> rfl
  | rNull => rfl
  | rIntNum n =>
    simp only [inferValue, rawShape]
    by_cases hn : -(2 ^ 31) ≤ n ∧ n < 2 ^ 31
    · rw [if_pos hn, if_pos hn]
      rfl
    · rw [if_neg hn, if_neg hn]
      rfl
  | rFracNum bits => rfl
  | rString s => rfl
  | rBlob bs => rfl

/-- `readTrue` of `osc.js`, declared at `src/types/osc/index.d.ts:276` with
return type the literal `true`: it takes no buffer and no offset. -/
def readTrue : Bool := true

/-- `readFalse` of `osc.js`, declared at `src/types/osc/index.d.ts:281` with
return type the literal `false`. -/
def readFalse : Bool := false

/-- `readNull` of `osc.js`, declared at `src/types/osc/index.d.ts:286`:
directly returns the JavaScript `null` value. -/
def readNull : RawValue := .rNull

/-- `readImpulse` of `osc.js`, declared at `src/types/osc/index.d.ts:291`:
directly returns 1.0. -/
def readImpulse : ℚ := 1

/-- Bundle round trip, packaged for `readBundle`/`writeBundle`: the marker
check passes and the joint induction applies. -/
theorem readBundle_writeBundle (opts : Options) (tt : TimeTag) (ps : List OscPacket)
    (fuel : Nat) (hval : validPacket (.bndl tt ps) = true)
    (hdepth : packetDepth (.bndl tt ps) ≤ fuel)
    (hopts : opts.unpackSingleArgs = false) :
    readBundle opts fuel (writeBundle tt ps) = .ok (.bndl tt ps, []) := by
  unfold readBundle writeBundle
  rw [if_pos (take8_marker_append _)]
  have hmain := (packet_roundtrip_aux (sizeOf (OscPacket.bndl tt ps))).1
    (.bndl tt ps) opts fuel (le_refl _) hval hdepth hopts
  rw [show writePacket (.bndl tt ps) = bundleMarker ++ (writeTimeTag tt ++ writePackets ps)
      from by rw [writePacket]] at hmain
  exact hmain

/-- Sample values used by the concrete instantiations below. -/
def sampleTT : TimeTag := ⟨(0, 1), ntpToJSTime 0 1⟩

def sampleMsg : OscMessage := ⟨[0x2F, 0x61], .packed []⟩

def samplePackets : List OscPacket := [.msg sampleMsg, .bndl sampleTT [.msg sampleMsg]]

/-- C1: for every valid Message, decoding the bytes produced by
`writeMessage` with `readMessage` yields an equal message — same address
and same argument sequence.  The model is the `metadata = true`
(type-annotated) view, and `unpackSingleArgs = false` keeps the array form
on both sides; these are the option settings under which equality is
exact. -/
theorem claim1_message_roundtrip (opts : Options) (m : OscMessage)
    (hm : validMessage m = true) (hopts : opts.unpackSingleArgs = false) :
    readMessage opts (writeMessage m opts) = .ok (m, []) := by
  have h := readMessage_writeMessage opts m [] hm hopts
  rwa [List.append_nil] at h

theorem claim1_witness :
    validMessage ⟨[47, 102, 111, 111], .packed [.vInt32 42]⟩ = true ∧
    readMessage ⟨true, false⟩
        (writeMessage ⟨[47, 102, 111, 111], .packed [.vInt32 42]⟩ ⟨true, false⟩)
      = .ok (⟨[47, 102, 111, 111], .packed [.vInt32 42]⟩, []) :=
  ⟨by decide, claim1_message_roundtrip ⟨true, false⟩ _ (by decide) rfl⟩

/-- C2: for every valid Bundle whose nesting depth is within the configured
maximum (the decoder's fuel), decoding the bytes produced by `writeBundle`
with `readBundle` yields an equal value — the time tag and the nested
packet sequence, in on-wire order, at every nesting depth. -/
theorem claim2_bundle_roundtrip (opts : Options) (tt : TimeTag) (ps : List OscPacket)
    (fuel : Nat) (hval : validPacket (.bndl tt ps) = true)
    (hdepth : packetDepth (.bndl tt ps) ≤ fuel)
    (hopts : opts.unpackSingleArgs = false) :
    readBundle opts fuel (writeBundle tt ps) = .ok (.bndl tt ps, []) :=
  readBundle_writeBundle opts tt ps fuel hval hdepth hopts

theorem claim2_witness :
    validPacket (.bndl sampleTT samplePackets) = true ∧
    packetDepth (.bndl sampleTT samplePackets) ≤ 2 ∧
    readBundle ⟨true, false⟩ 2 (writeBundle sampleTT samplePackets)
      = .ok (.bndl sampleTT samplePackets, []) :=
  ⟨by
    simp [validPacket, validPackets, samplePackets, sampleTT, sampleMsg, validMessage,
      validString, writePacket, writePackets, writeMessage, writeArgumentsTyped,
      writeOscString, writeTimeTag, writeInt32, beBytes, pad4, bundleMarker,
      ArgsField.toList, writeArgBody],
   by simp [packetDepth, packetsDepth, samplePackets],
   claim2_bundle_roundtrip ⟨true, false⟩ sampleTT samplePackets 2
     (by
       simp [validPacket, validPackets, samplePackets, sampleTT, sampleMsg, validMessage,
         validString, writePacket, writePackets, writeMessage, writeArgumentsTyped,
         writeOscString, writeTimeTag, writeInt32, beBytes, pad4, bundleMarker,
         ArgsField.toList, writeArgBody])
     (by simp [packetDepth, packetsDepth, samplePackets]) rfl⟩

/-- C3 (amended): decoding the SLIP frame produced by encoding a NON-EMPTY
byte sequence yields exactly that single frame (the state machine silently
drops empty frames, so the empty sequence produces no frame — see the
counterexample); and feeding any chunk sequence to the incremental decoder
— boundaries anywhere, including mid-escape — emits exactly the frames of
the concatenated input, with the same final state, so no byte is lost or
duplicated across calls. -/
theorem claim3_slip_roundtrip (s : List Nat) (st : SlipState) (cs : List (List Nat))
    (h : s ≠ []) :
    slipDecode initSlip (encodeSLIP s) = (initSlip, [s]) ∧
    slipFeed st cs = slipDecode st cs.flatten :=
  ⟨slipDecode_encodeSLIP s h, slipFeed_flatten st cs⟩

theorem claim3_counterexample :
    ¬ (slipDecode initSlip (encodeSLIP ([] : List Nat))).2 = [[]] := by decide

theorem claim3_witness :
    slipDecode initSlip (encodeSLIP [7]) = (initSlip, [[7]]) ∧
    slipFeed initSlip [[0xDB], [0xDC, 0xC0]]
      = slipDecode initSlip ([[0xDB], [0xDC, 0xC0]] : List (List Nat)).flatten :=
  claim3_slip_roundtrip [7] initSlip [[0xDB], [0xDC, 0xC0]] (by decide)

/-- C4: `readPacket` routes on the leading bytes: an exact `#bundle\0`
prefix decodes as a bundle (every success is a bundle value), otherwise a
leading `/` decodes as a message, and any other leading byte fails with
`invalidPacket`. -/
theorem claim4_readPacket_routing (opts : Options) (fuel : Nat) (bytes : List Nat) :
    (bytes.take 8 = bundleMarker →
      ∀ p rest, readPacket opts fuel bytes = .ok (p, rest) →
        ∃ tt ps, p = .bndl tt ps) ∧
    (¬ bytes.take 8 = bundleMarker → bytes.head? = some 0x2F →
      readPacket opts fuel bytes
        = (readMessage opts bytes).map fun pr => (OscPacket.msg pr.1, pr.2)) ∧
    (∀ b, bytes.head? = some b → ¬ b = 0x2F → ¬ bytes.take 8 = bundleMarker →
      readPacket opts fuel bytes = .error .invalidPacket) := by
  refine ⟨?_, ?_, ?_⟩
  · intro hm p rest hok
    rw [readPacket.eq_def] at hok
    simp only [] at hok
    rw [if_pos hm] at hok
    cases fuel with
    | zero => simp at hok
    | succ f =>
      cases hrt : readTimeTag (bytes.drop 8) with
      | error e =>
        rw [hrt] at hok
        simp at hok
      | ok pr =>
        obtain ⟨tt, r⟩ := pr
        rw [hrt] at hok
        simp only [] at hok
        cases hbp : readBundlePackets opts f r with
        | error e =>
          rw [hbp] at hok
          simp at hok
        | ok ps =>
          rw [hbp] at hok
          simp only [Except.ok.injEq, Prod.mk.injEq] at hok
          exact ⟨tt, ps, hok.1.symm⟩
  · intro hm hh
    rw [readPacket.eq_def]
    simp only [if_neg hm, hh]
    cases hrm : readMessage opts bytes with
    | error e => simp [Except.map]
    | ok pr => simp [Except.map]
  · intro b hh hb hm
    rw [readPacket.eq_def]
    simp only [if_neg hm, hh]
    simp [hb]

theorem claim4_witness :
    readPacket ⟨true, false⟩ 1 [0x41] = .error .invalidPacket :=
  (claim4_readPacket_routing ⟨true, false⟩ 1 [0x41]).2.2 0x41 rfl (by decide) (by decide)

/-- C5: `ntpToJSTime` computes exactly
`(secs1900 - SECONDS_BETWEEN_1900_AND_1970) * 1000 + frac / 2^32 * 1000`
(in exact rational arithmetic), and the native-to-NTP direction is its
inverse: converting the produced milliseconds back yields the original
pair. -/
theorem claim5_ntp_conversion (secs frac : Nat) (h : frac < 2 ^ 32) :
    ntpToJSTime secs frac
      = ((secs : ℚ) - (secondsBetween1900And1970 : ℚ)) * 1000
        + (frac : ℚ) / 2 ^ 32 * 1000 ∧
    jsToNTPTime (ntpToJSTime secs frac) = ((secs : Int), (frac : Int)) :=
  ⟨rfl, jsToNTPTime_ntpToJSTime secs frac h⟩

theorem claim5_witness :
    ntpToJSTime 2208988801 2147483648
      = ((2208988801 : ℚ) - (secondsBetween1900And1970 : ℚ)) * 1000
        + ((2147483648 : ℚ)) / 2 ^ 32 * 1000 ∧
    jsToNTPTime (ntpToJSTime 2208988801 2147483648)
      = ((2208988801 : Int), (2147483648 : Int)) := by
  have h := claim5_ntp_conversion 2208988801 2147483648 (by norm_num)
  exact_mod_cast h

/-- C6: when `unpackSingleArgs` is set, a decoded message never carries a
packed one-element argument list — a single argument is exposed unwrapped —
and `writeMessage` encodes the bare-scalar form and the wrapped one-element
form identically. -/
theorem claim6_unpack (opts : Options) (bytes : List Nat) (m : OscMessage)
    (rest : List Nat) (hopts : opts.unpackSingleArgs = true)
    (hok : readMessage opts bytes = .ok (m, rest)) :
    ((∃ v, m.args = .unpacked v) ∨ (∃ l, m.args = .packed l ∧ l.length ≠ 1)) ∧
    (∀ (addr : List Nat) (v : OscValue) (o2 : Options),
      writeMessage ⟨addr, .unpacked v⟩ o2 = writeMessage ⟨addr, .packed [v]⟩ o2) := by
  constructor
  · unfold readMessage at hok
    cases hs : readOscString bytes with
    | error e => rw [hs] at hok; simp at hok
    | ok pr =>
      obtain ⟨addr, r⟩ := pr
      rw [hs] at hok
      simp only [] at hok
      by_cases hh : addr.head? = some 0x2F
      · rw [if_pos hh] at hok
        cases ha : readArguments r with
        | error e => rw [ha] at hok; simp at hok
        | ok pr2 =>
          obtain ⟨args, rest2⟩ := pr2
          rw [ha] at hok
          simp only [Except.ok.injEq, Prod.mk.injEq] at hok
          obtain ⟨hm, _⟩ := hok
          rw [← hm]
          match args with
          | [] => exact Or.inr ⟨[], rfl, by simp⟩
          | [v] => exact Or.inl ⟨v, by simp [mkArgsField, hopts]⟩
          | v :: w :: t => exact Or.inr ⟨v :: w :: t, rfl, by simp⟩
      · rw [if_neg hh] at hok
        simp at hok
  · intro addr v o2
    rfl

theorem claim6_witness :
    ((∃ v, (⟨[47, 97], ArgsField.unpacked (OscValue.vInt32 5)⟩ : OscMessage).args
        = .unpacked v) ∨
     (∃ l, (⟨[47, 97], ArgsField.unpacked (OscValue.vInt32 5)⟩ : OscMessage).args
        = .packed l ∧ l.length ≠ 1)) ∧
    (∀ (addr : List Nat) (v : OscValue) (o2 : Options),
      writeMessage ⟨addr, .unpacked v⟩ o2 = writeMessage ⟨addr, .packed [v]⟩ o2) :=
  claim6_unpack ⟨true, true⟩ [47, 97, 0, 0, 44, 105, 0, 0, 0, 0, 0, 5]
    ⟨[47, 97], .unpacked (.vInt32 5)⟩ [] rfl rfl

/-- C7: every TimeTag returned by `readTimeTag` is coherent: the raw pair
is authoritative and the native millisecond field is exactly its
NTP-to-native conversion. -/
theorem claim7_timeTag_coherence (bytes : List Nat) (tt : TimeTag) (rest : List Nat)
    (h : readTimeTag bytes = .ok (tt, rest)) :
    tt.native = ntpToJSTime tt.raw.1 tt.raw.2 := by
  unfold readTimeTag at h
  cases h1 : readBE 4 bytes with
  | error e => rw [h1] at h; simp at h
  | ok pr =>
    obtain ⟨secs, r1⟩ := pr
    rw [h1] at h
    simp only [] at h
    cases h2 : readBE 4 r1 with
    | error e => rw [h2] at h; simp at h
    | ok pr2 =>
      obtain ⟨frac, r2⟩ := pr2
      rw [h2] at h
      simp only [Except.ok.injEq, Prod.mk.injEq] at h
      obtain ⟨htt, _⟩ := h
      rw [← htt]

theorem claim7_witness :
    (⟨(0, 1), ntpToJSTime 0 1⟩ : TimeTag).native = ntpToJSTime 0 1 :=
  claim7_timeTag_coherence [0, 0, 0, 0, 0, 0, 0, 1] ⟨(0, 1), ntpToJSTime 0 1⟩ [] rfl

/-- C8: the four flag tags carry no on-wire bytes: `readTrue` is the
constant `true`, `readFalse` the constant `false`, `readNull` the constant
null value, `readImpulse` the constant 1.0 — none takes a buffer — and the
argument readers for tags `T`, `F`, `N`, `I` return those values leaving
the buffer exactly as it was (no cursor movement). -/
theorem claim8_flag_readers (bytes : List Nat) :
    readTrue = true ∧ readFalse = false ∧ readNull = RawValue.rNull ∧
    readImpulse = (1 : ℚ) ∧
    readArgBody 0x54 bytes = .ok (.vTrue, bytes) ∧
    readArgBody 0x46 bytes = .ok (.vFalse, bytes) ∧
    readArgBody 0x4E bytes = .ok (.vNull, bytes) ∧
    readArgBody 0x49 bytes = .ok (.vImpulse, bytes) := by
  refine ⟨rfl, rfl, rfl, rfl, ?_, ?_, ?_, ?_⟩ <;> simp [readArgBody]

/-- C9 (amended): type inference is deterministic, and the inferred
type-tag string depends only on the argument shapes — identically shaped
lists get identical tag strings; the produced BYTES are identical only for
identical argument lists (same-shape lists with different values encode
different bytes — see the counterexample). -/
theorem claim9_inference_deterministic (args1 args2 : List RawValue)
    (opts1 opts2 : Options)
    (hshape : args1.map rawShape = args2.map rawShape) :
    inferredTagString args1 = inferredTagString args2 ∧
    (args1 = args2 → writeArguments args1 opts1 = writeArguments args2 opts2) := by
  constructor
  · have key : ∀ l : List RawValue,
        l.map (fun a => tagFor (inferValue a)) = (l.map rawShape).map tagOfShape := by
      intro l
      rw [List.map_map]
      exact List.map_congr_left fun a _ => tagFor_inferValue_shape a
    unfold inferredTagString
    rw [key args1, key args2, hshape]
  · intro he
    subst he
    rfl

theorem claim9_counterexample :
    [RawValue.rIntNum 3].map rawShape = [RawValue.rIntNum 5].map rawShape ∧
    inferredTagString [RawValue.rIntNum 3] = inferredTagString [RawValue.rIntNum 5] ∧
    ¬ writeArguments [RawValue.rIntNum 3] ⟨true, false⟩
        = writeArguments [RawValue.rIntNum 5] ⟨true, false⟩ := by
  refine ⟨?_, ?_, ?_⟩ <;> decide

theorem claim9_witness :
    inferredTagString [RawValue.rIntNum 3, RawValue.rNull]
      = inferredTagString [RawValue.rIntNum 4, RawValue.rNull] ∧
    ([RawValue.rIntNum 3, RawValue.rNull] = [RawValue.rIntNum 4, RawValue.rNull] →
      writeArguments [RawValue.rIntNum 3, RawValue.rNull] ⟨true, false⟩
        = writeArguments [RawValue.rIntNum 4, RawValue.rNull] ⟨false, true⟩) :=
  claim9_inference_deterministic _ _ ⟨true, false⟩ ⟨false, true⟩ (by decide)

/-- C10: every successful `readBundle` call returns a value of the Packet
sum type — a Message or a Bundle; the declared interface
(`readBundle(): Packet`) does not promise a Bundle, so callers must accept
either constructor. -/
theorem claim10_readBundle_sum (opts : Options) (fuel : Nat) (bytes : List Nat)
    (p : OscPacket) (rest : List Nat)
    (hok : readBundle opts fuel bytes = .ok (p, rest)) :
    (∃ m, p = .msg m) ∨ (∃ tt ps, p = .bndl tt ps) := by
  cases p with
  | msg m => exact Or.inl ⟨m, rfl⟩
  | bndl tt ps => exact Or.inr ⟨tt, ps, rfl⟩

theorem claim10_witness :
    (∃ m, (OscPacket.bndl sampleTT samplePackets) = .msg m) ∨
    (∃ tt ps, (OscPacket.bndl sampleTT samplePackets) = .bndl tt ps) :=
  claim10_readBundle_sum ⟨true, false⟩ 2 (writeBundle sampleTT samplePackets)
    (.bndl sampleTT samplePackets) []
    (readBundle_writeBundle ⟨true, false⟩ sampleTT samplePackets 2
      (by
        simp [validPacket, validPackets, samplePackets, sampleTT, sampleMsg, validMessage,
          validString, writePacket, writePackets, writeMessage, writeArgumentsTyped,
          writeOscString, writeTimeTag, writeInt32, beBytes, pad4, bundleMarker,
          ArgsField.toList, writeArgBody])
      (by simp [packetDepth, packetsDepth, samplePackets]) rfl)

end Osc
